import Mathlib

/-!
Verification of the alphalite wallet layer: a shallow embedding of the
token data model, the `CoinManager` selection algorithm, the
`TokenSplitter` burn-then-mint executor, the `Wallet` token store and the
`AlphaClient` send/receive orchestration, together with theorems settling
the claims of the specification about them.
-/

namespace Alphalite

/-- A token: an id plus a list of `(coinId, amount)` balance entries
(mirrors `SimpleToken`: `id` and `coins`; amounts are `bigint`, embedded
as `Int`). -/
structure SimpleToken where
  id : Nat
  coins : List (Nat × Int)
  deriving DecidableEq, Repr, Inhabited

/-- Lookup in the map built by `SimpleToken.coinMap`: entries are inserted
in list order into a JS `Map`, so a later entry for the same coin wins. -/
def coinMapGet : List (Nat × Int) → Nat → Option Int
  | [], _ => none
  | (n, a) :: rest, c =>
    match coinMapGet rest c with
    | some v => some v
    | none => if n = c then some a else none

/-- `SimpleToken.getCoinBalance`: `this.coinMap.get(coinName) ?? 0n`. -/
def SimpleToken.getCoinBalance (t : SimpleToken) (coin : Nat) : Int :=
  (coinMapGet t.coins coin).getD 0

/-- A wallet token entry (`TokenEntry` in `Wallet.ts`): the token plus the
salt needed to spend it (identity/label/timestamp omitted; they play no
role in the verified claims). -/
structure TokenEntry where
  token : SimpleToken
  salt : Nat
  deriving DecidableEq, Repr, Inhabited

/-- Balance of a wallet entry for a coin. -/
def bal (coin : Nat) (e : TokenEntry) : Int :=
  e.token.getCoinBalance coin

/-- `CoinManager.getBalance`: total balance of a coin over all wallet
entries. -/
def getBalance (entries : List TokenEntry) (coin : Nat) : Int :=
  (entries.map (bal coin)).sum

/-- `ITokenSelection`: result of token selection. -/
structure TokenSelection where
  tokens : List TokenEntry
  totalAmount : Int
  requiresSplit : Bool
  splitAmount : Option Int
  changeAmount : Option Int
  deriving DecidableEq, Repr

/-- `ITokenWithBalance`: an entry paired with its balance for the coin
being selected. -/
structure TokenWithBalance where
  entry : TokenEntry
  balance : Int
  deriving DecidableEq, Repr

/-- Errors thrown by `CoinManager.selectTokensForAmount`. -/
inductive SelectError
  | invalidAmount
  | noBalance
  | insufficientBalance
  | unexpected
  deriving DecidableEq, Repr

/-- `CoinManager.getTokensWithBalance`: keep entries with positive balance
for the coin, pairing each with that balance. -/
def getTokensWithBalance (entries : List TokenEntry) (coin : Nat) :
    List TokenWithBalance :=
  entries.filterMap fun e =>
    if 0 < bal coin e then some ⟨e, bal coin e⟩ else none

/-- Loop body of `CoinManager.tryConsumeSmallTokens`: accumulate smaller
tokens in ascending order; on exact hit return them with no split; on
overshoot, back the last one off and split `ss` for the remaining gap if
it fits; after the loop, split `ss` for the remaining gap if it fits. -/
def consumeSmallLoop (ss : TokenWithBalance) (amount : Int) :
    List TokenWithBalance → List TokenWithBalance → Int →
    Option TokenSelection
  | [], consumed, accumulated =>
    let remaining := amount - accumulated
    if 0 < remaining ∧ remaining < ss.balance then
      some ⟨consumed.map (·.entry) ++ [ss.entry],
        accumulated + ss.balance, true, some remaining,
        some (ss.balance - remaining)⟩
    else
      none
  | t :: rest, consumed, accumulated =>
    let acc' := accumulated + t.balance
    if acc' = amount then
      some ⟨(consumed ++ [t]).map (·.entry), amount, false, none, none⟩
    else if amount < acc' then
      let remaining := amount - accumulated
      if 0 < remaining ∧ remaining < ss.balance then
        some ⟨consumed.map (·.entry) ++ [ss.entry],
          accumulated + ss.balance, true, some remaining,
          some (ss.balance - remaining)⟩
      else
        consumeSmallLoop ss amount rest (consumed ++ [t]) acc'
    else
      consumeSmallLoop ss amount rest (consumed ++ [t]) acc'

/-- `CoinManager.tryConsumeSmallTokens`: accumulate the tokens strictly
smaller than the smallest sufficient one (returning `none` when there are
none) via `consumeSmallLoop`. -/
def tryConsumeSmallTokens (sortedTokens : List TokenWithBalance)
    (amount : Int) (smallestSufficient : TokenWithBalance) :
    Option TokenSelection :=
  if (sortedTokens.filter fun t =>
      t.balance < smallestSufficient.balance).isEmpty then
    none
  else
    consumeSmallLoop smallestSufficient amount
      (sortedTokens.filter fun t => t.balance < smallestSufficient.balance)
      [] 0

/-- Loop body of `CoinManager.selectMultipleTokens`: accumulate ascending
until the running sum reaches the amount; split the last added token if it
overshoots. Falling off the end is the `"Unexpected"` throw of the code. -/
def selectMultipleLoop (amount : Int) :
    List TokenWithBalance → List TokenWithBalance → Int →
    Except SelectError TokenSelection
  | [], _, _ => .error .unexpected
  | t :: rest, selected, accumulated =>
    let acc' := accumulated + t.balance
    if acc' = amount then
      .ok ⟨(selected ++ [t]).map (·.entry), amount, false, none, none⟩
    else if amount < acc' then
      let neededFromLast := amount - (acc' - t.balance)
      .ok ⟨(selected ++ [t]).map (·.entry), acc', true,
        some neededFromLast, some (t.balance - neededFromLast)⟩
    else
      selectMultipleLoop amount rest (selected ++ [t]) acc'

/-- `CoinManager.selectMultipleTokens`. -/
def selectMultipleTokens (sortedTokens : List TokenWithBalance)
    (amount : Int) : Except SelectError TokenSelection :=
  selectMultipleLoop amount sortedTokens [] 0

/-- The strategy cascade of `CoinManager.selectTokensForAmount` after its
guards, over the ascending-sorted positive-balance list: exact single
match, else smallest sufficient token with small-token absorption
(splitting it alone as fallback), else multi-token accumulation. -/
def selectFromSorted (sorted : List TokenWithBalance) (amount : Int) :
    Except SelectError TokenSelection :=
  match sorted.find? fun t => t.balance = amount with
  | some exactMatch =>
    .ok ⟨[exactMatch.entry], amount, false, none, none⟩
  | none =>
    match sorted.find? fun t => amount ≤ t.balance with
    | some smallestSufficient =>
      match tryConsumeSmallTokens sorted amount smallestSufficient with
      | some consumeSmallResult => .ok consumeSmallResult
      | none =>
        .ok ⟨[smallestSufficient.entry], smallestSufficient.balance,
          true, some amount, some (smallestSufficient.balance - amount)⟩
    | none => selectMultipleTokens sorted amount

/-- `CoinManager.selectTokensForAmount`: validate the amount, filter to
entries with positive balance, check the total, sort ascending by balance
(JS `sort` is stable; embedded as insertion sort, which is stable), then
run the strategy cascade `selectFromSorted`. -/
def selectTokensForAmount (entries : List TokenEntry) (coin : Nat)
    (amount : Int) : Except SelectError TokenSelection :=
  if amount ≤ 0 then
    .error .invalidAmount
  else if (getTokensWithBalance entries coin).isEmpty then
    .error .noBalance
  else if (getTokensWithBalance entries coin).foldl
      (fun sum t => sum + t.balance) 0 < amount then
    .error .insufficientBalance
  else
    selectFromSorted
      ((getTokensWithBalance entries coin).insertionSort
        fun a b => a.balance ≤ b.balance)
      amount

/-! ## Wallet store -/

/-- `Wallet.addToken`: push a new entry for the token; the source performs
no duplicate check of any kind. -/
def addToken (w : List TokenEntry) (token : SimpleToken) (salt : Nat) :
    List TokenEntry :=
  w ++ [⟨token, salt⟩]

/-- `Wallet.removeToken`: remove the first entry whose token has the given
id (the source uses `findIndex` + `splice(1)`). -/
def removeToken : List TokenEntry → Nat → List TokenEntry
  | [], _ => []
  | e :: rest, tokenId =>
    if e.token.id = tokenId then rest else e :: removeToken rest tokenId

/-! ## Split executor (`TokenSplitter`)

The interaction of the executor with the ledger is embedded as a trace of
observable events produced in program order, with the responses of the ledger
supplied by an environment: whether the burn/mint submissions are accepted
and whether their inclusion proofs arrive before the polling ceiling.
The wallet state is threaded through the burned-token callback. -/

/-- Observable ledger/callback events of one split operation, in order of
occurrence. -/
inductive SplitEvent
  | burnSubmitted
  | burnProofReceived
  | callbackInvoked
  | mintSubmitted (idx : Nat)
  | mintProofReceived (idx : Nat)
  deriving DecidableEq, Repr

/-- Errors thrown by `TokenSplitter.split` / `TokenSplitter.splitExact`
and by the orchestration around them. -/
inductive SplitError
  | insufficientBalance
  | useSplitExact
  | noBalance
  | burnRejected
  | burnProofTimeout
  | callbackFailed
  | mintRejected (idx : Nat)
  | mintProofTimeout (idx : Nat)
  | emptySelection
  deriving DecidableEq, Repr

/-- Ledger responses for one splitter invocation: whether the burn
submission returns success, whether the burn inclusion proof arrives, and
the same per mint commitment index. -/
structure SplitEnv where
  burnOk : Bool
  burnProofOk : Bool
  mintOk : Nat → Bool
  mintProofOk : Nat → Bool

/-- `OnTokenBurnedCallback`: given the id of the burned token and the current
wallet, returns the updated wallet, or `none` if the callback throws. -/
def OnTokenBurnedCallback : Type :=
  Nat → List TokenEntry → Option (List TokenEntry)

/-- The mint phase shared by `split` (two commitments) and `splitExact`
(one): submit each mint commitment in order, failing fast on a rejected
submission or a missing inclusion proof. -/
def mintLoop (env : SplitEnv) (w : List TokenEntry) :
    List Nat → List SplitEvent →
    List SplitEvent × List TokenEntry × Except SplitError Unit
  | [], trace => (trace, w, .ok ())
  | idx :: rest, trace =>
    let trace1 := trace ++ [.mintSubmitted idx]
    if env.mintOk idx then
      if env.mintProofOk idx then
        mintLoop env w rest (trace1 ++ [.mintProofReceived idx])
      else
        (trace1, w, .error (.mintProofTimeout idx))
    else
      (trace1, w, .error (.mintRejected idx))

/-- The burn-then-mint sequence common to `split` and `splitExact` after
their guards: submit the burn, await its inclusion proof, invoke and await
the burned-token callback (when supplied; its failure aborts the
operation), then run the mint phase. -/
def burnThenMint (env : SplitEnv)
    (onTokenBurned : Option OnTokenBurnedCallback) (tokenId : Nat)
    (mintCount : Nat) (w : List TokenEntry) :
    List SplitEvent × List TokenEntry × Except SplitError Unit :=
  if env.burnOk then
    if env.burnProofOk then
      match onTokenBurned with
      | some cb =>
        match cb tokenId w with
        | some w' =>
          mintLoop env w' (List.range mintCount)
            [.burnSubmitted, .burnProofReceived, .callbackInvoked]
        | none =>
          ([.burnSubmitted, .burnProofReceived, .callbackInvoked], w,
            .error .callbackFailed)
      | none =>
        mintLoop env w (List.range mintCount)
          [.burnSubmitted, .burnProofReceived]
    else
      ([.burnSubmitted], w, .error .burnProofTimeout)
  else
    ([.burnSubmitted], w, .error .burnRejected)

/-- `TokenSplitter.split`: guard that the change amount is positive
(`changeAmount < 0` → insufficient balance; `= 0` → caller must use
`splitExact`), then burn and mint two tokens (recipient index 0, change
index 1). -/
def TokenSplitter.split (env : SplitEnv)
    (onTokenBurned : Option OnTokenBurnedCallback) (tokenId : Nat)
    (tokenBalance amount : Int) (w : List TokenEntry) :
    List SplitEvent × List TokenEntry × Except SplitError Unit :=
  let changeAmount := tokenBalance - amount
  if changeAmount < 0 then
    ([], w, .error .insufficientBalance)
  else if changeAmount = 0 then
    ([], w, .error .useSplitExact)
  else
    burnThenMint env onTokenBurned tokenId 2 w

/-- `TokenSplitter.splitExact`: guard that the token has a balance for the
coin, then burn and mint a single recipient token. -/
def TokenSplitter.splitExact (env : SplitEnv)
    (onTokenBurned : Option OnTokenBurnedCallback) (tokenId : Nat)
    (tokenBalance : Int) (w : List TokenEntry) :
    List SplitEvent × List TokenEntry × Except SplitError Unit :=
  if tokenBalance = 0 then
    ([], w, .error .noBalance)
  else
    burnThenMint env onTokenBurned tokenId 1 w

/-- `createOnBurnedCallback` in `AlphaClient.sendAmount`: verify the
burned token is the expected one (else throw), then remove it from the
wallet (the state-change notification does not alter the owned set). -/
def createOnBurnedCallback (expectedTokenId : Nat) : OnTokenBurnedCallback :=
  fun burnedTokenId w =>
    if burnedTokenId = expectedTokenId then
      some (removeToken w expectedTokenId)
    else
      none

/-- The consume loop of the multi-token path of `sendAmount`: `splitExact`
every entry in order, each with its own burn callback, failing fast;
returns the next splitter-invocation index on success. -/
def consumeTokens (env : Nat → SplitEnv) (coin : Nat) :
    Nat → List TokenEntry → List SplitEvent → List TokenEntry →
    List SplitEvent × List TokenEntry × Except SplitError Nat
  | k, [], trace, w => (trace, w, .ok k)
  | k, e :: rest, trace, w =>
    let r := TokenSplitter.splitExact (env k)
      (some (createOnBurnedCallback e.token.id)) e.token.id (bal coin e) w
    match r.2.2 with
    | .ok _ => consumeTokens env coin (k + 1) rest (trace ++ r.1) r.2.1
    | .error err => (trace ++ r.1, r.2.1, .error err)

/-- The post-selection part of `AlphaClient.sendAmount`: dispatch on the
selection shape (single entry exact / single entry split / multiple
entries), threading the wallet through the burn callbacks and adding the
change entry after a successful `split`. `env k` supplies the
responses to the `k`-th splitter invocation; `change` stands for the
materialized change entry. -/
def sendAmountExec (env : Nat → SplitEnv) (coin : Nat)
    (change : TokenEntry) (sel : TokenSelection) (w : List TokenEntry) :
    List SplitEvent × List TokenEntry × Except SplitError Unit :=
  match sel.tokens with
  | [] => ([], w, .error .emptySelection)
  | [e] =>
    if sel.requiresSplit then
      let r := TokenSplitter.split (env 0)
        (some (createOnBurnedCallback e.token.id)) e.token.id (bal coin e)
        (sel.splitAmount.getD 0) w
      match r.2.2 with
      | .ok _ => (r.1, r.2.1 ++ [change], .ok ())
      | .error err => (r.1, r.2.1, .error err)
    else
      TokenSplitter.splitExact (env 0)
        (some (createOnBurnedCallback e.token.id)) e.token.id (bal coin e) w
  | e :: rest =>
    let ts := e :: rest
    let lastE := ts.getLast (List.cons_ne_nil e rest)
    let r1 := consumeTokens env coin 0 ts.dropLast [] w
    match r1.2.2 with
    | .error err => (r1.1, r1.2.1, .error err)
    | .ok k =>
      if sel.requiresSplit then
        let r := TokenSplitter.split (env k)
          (some (createOnBurnedCallback lastE.token.id)) lastE.token.id
          (bal coin lastE) (sel.splitAmount.getD 0) r1.2.1
        match r.2.2 with
        | .ok _ => (r1.1 ++ r.1, r.2.1 ++ [change], .ok ())
        | .error err => (r1.1 ++ r.1, r.2.1, .error err)
      else
        let r := TokenSplitter.splitExact (env k)
          (some (createOnBurnedCallback lastE.token.id)) lastE.token.id
          (bal coin lastE) r1.2.1
        (r1.1 ++ r.1, r.2.1, r.2.2)

/-! ## Receiving transfers -/

/-- The data of the mint transaction embedded in a transfer payload
(`MintTransactionData`): the id and type of the new token, the declared
recipient address, and the coin balances. -/
structure MintTransactionData where
  tokenId : Nat
  tokenType : Nat
  recipientAddress : Nat × Nat
  coins : List (Nat × Int)
  deriving DecidableEq, Repr

/-- Address derivation
(`UnmaskedPredicateReference.create(...).toAddress()`): an
unmasked-predicate address is determined by the token type and the
public key of the owner. -/
def deriveAddress (tokenType publicKey : Nat) : Nat × Nat :=
  (tokenType, publicKey)

/-- `IRecipientPayload` (`type: "split_mint"`). -/
structure RecipientPayload where
  mintTransaction : MintTransactionData
  salt : Nat
  amount : Int
  coinId : Nat
  deriving DecidableEq, Repr

/-- `SimpleToken.fromSplitMint`: reconstruct the received token from the
token id and coin data of the embedded mint transaction, building the spending
predicate from the local signing key and the transmitted salt. The mint
declared `recipientAddress` of the mint transaction is never read, and no comparison
with the locally reconstructed address is performed (the salt and key only
shape the spending predicate, which carries no observable data here). -/
def SimpleToken.fromSplitMint (mintTransaction : MintTransactionData)
    (_salt : Nat) (_publicKey : Nat) : SimpleToken :=
  ⟨mintTransaction.tokenId, mintTransaction.coins⟩

/-- `AlphaClient.receiveSplitToken`: reconstruct the token via
`fromSplitMint` and unconditionally add it to the wallet (then notify,
which does not alter the owned set). -/
def receiveSplitToken (w : List TokenEntry) (payload : RecipientPayload)
    (publicKey : Nat) : List TokenEntry × SimpleToken :=
  let token :=
    SimpleToken.fromSplitMint payload.mintTransaction payload.salt publicKey
  (addToken w token payload.salt, token)

/-- A transfer envelope: `split_mint` (single) or `multi_split`. -/
inductive TransferPayload
  | splitMint (payload : RecipientPayload)
  | multiSplit (payloads : List RecipientPayload) (totalAmount : Int)
      (coinId : Nat)
  deriving DecidableEq, Repr

/-- `AlphaClient.receiveAmount`: process a single payload, or each
sub-payload of a multi envelope in order; returns the updated wallet and
the received tokens. -/
def receiveAmount (w : List TokenEntry) (p : TransferPayload)
    (publicKey : Nat) : List TokenEntry × List SimpleToken :=
  match p with
  | .splitMint payload =>
    let r := receiveSplitToken w payload publicKey
    (r.1, [r.2])
  | .multiSplit payloads _ _ =>
    payloads.foldl
      (fun acc payload =>
        let r := receiveSplitToken acc.1 payload publicKey
        (r.1, acc.2 ++ [r.2]))
      (w, [])

/-! ## Decidability, specification predicates and concrete inputs -/

instance {ε α : Type} [DecidableEq ε] [DecidableEq α] :
    DecidableEq (Except ε α) := fun x y =>
  match x, y with
  | .ok a, .ok b =>
    if h : a = b then isTrue (congrArg Except.ok h)
    else isFalse fun hh => h (Except.ok.inj hh)
  | .error a, .error b =>
    if h : a = b then isTrue (congrArg Except.error h)
    else isFalse fun hh => h (Except.error.inj hh)
  | .ok _, .error _ => isFalse fun hh => Except.noConfusion hh
  | .error _, .ok _ => isFalse fun hh => Except.noConfusion hh

/-- Every element of `l` carries exactly its balance for `coin`. -/
def Faithful (coin : Nat) (l : List TokenWithBalance) : Prop :=
  ∀ t ∈ l, t.balance = bal coin t.entry

/-- The exactness contract of a returned selection: without a split the
selected balances sum to the amount and no split fields are set; with a
split, the split fields are set, the balances of all but the last entry
plus the split amount sum to the amount, and the change is the balance of
the last entry minus the split amount, strictly between 0 and that
balance. -/
def SelOk (coin : Nat) (amount : Int) (sel : TokenSelection) : Prop :=
  (sel.requiresSplit = false →
    sel.splitAmount = none ∧ sel.changeAmount = none ∧
    (sel.tokens.map (bal coin)).sum = amount) ∧
  (sel.requiresSplit = true →
    ∃ front lastE s, sel.tokens = front ++ [lastE] ∧
      sel.splitAmount = some s ∧
      sel.changeAmount = some (bal coin lastE - s) ∧
      (front.map (bal coin)).sum + s = amount ∧
      0 < s ∧ s < bal coin lastE)

/-- Concrete wallet entry: token id `i`, holding balance `b` of coin 1. -/
def exEntry (i : Nat) (b : Int) : TokenEntry :=
  ⟨⟨i, [(1, b)]⟩, 0⟩

/-- The five-entry wallet of the small-token-preference scenario: token
ids 1, 2, 3, 4, 5 hold balances 10, 25, 50, 100, 500 of coin 1. -/
def exWallet : List TokenEntry :=
  [exEntry 1 10, exEntry 2 25, exEntry 3 50, exEntry 4 100, exEntry 5 500]

/-- Ledger environment accepting every submission and delivering every
inclusion proof. -/
def allOkEnv : SplitEnv :=
  ⟨true, true, fun _ => true, fun _ => true⟩

/-- Ledger environment rejecting the burn submission. -/
def burnRejectedEnv : SplitEnv :=
  ⟨false, true, fun _ => true, fun _ => true⟩

/-- A transfer payload whose declared recipient address is derived from
public key 2 (token id 7, token type 3, 100 units of coin 1, salt 9). -/
def wrongRecipientPayload : RecipientPayload :=
  ⟨⟨7, 3, deriveAddress 3 2, [(1, 100)]⟩, 9, 100, 1⟩

/-- A transfer payload addressed to public key 1 (token id 7, token type
3, 100 units of coin 1, salt 9). -/
def dupPayload : RecipientPayload :=
  ⟨⟨7, 3, deriveAddress 3 1, [(1, 100)]⟩, 9, 100, 1⟩

/-! ## Theorems -/

theorem mem_getTokensWithBalance {entries : List TokenEntry} {coin : Nat}
    {t : TokenWithBalance} :
    t ∈ getTokensWithBalance entries coin ↔
      t.entry ∈ entries ∧ t.balance = bal coin t.entry ∧ 0 < t.balance := by
  simp only [getTokensWithBalance, List.mem_filterMap]
  constructor
  · rintro ⟨e, he, hf⟩
    split at hf
    · rename_i hb
      cases hf
      exact ⟨he, rfl, hb⟩
    · cases hf
  · rintro ⟨he, hb, hpos⟩
    refine ⟨t.entry, he, ?_⟩
    rw [← hb]
    rw [if_pos hpos]

theorem foldl_balance (l : List TokenWithBalance) (a : Int) :
    l.foldl (fun sum t => sum + t.balance) a = a + (l.map (·.balance)).sum := by
  induction l generalizing a with
  | nil => simp
  | cons t rest ih =>
    rw [List.foldl_cons, ih, List.map_cons, List.sum_cons]
    ring

theorem getBalance_le_twbSum (entries : List TokenEntry) (coin : Nat) :
    getBalance entries coin ≤
      ((getTokensWithBalance entries coin).map (·.balance)).sum := by
  induction entries with
  | nil => simp [getBalance, getTokensWithBalance]
  | cons e rest ih =>
    by_cases hb : 0 < bal coin e
    · simp only [getBalance, getTokensWithBalance, List.map_cons,
        List.sum_cons, List.filterMap_cons, if_pos hb] at *
      linarith
    · simp only [getBalance, getTokensWithBalance, List.map_cons,
        List.sum_cons, List.filterMap_cons, if_neg hb] at *
      push_neg at hb
      linarith

theorem faithful_getTokensWithBalance (entries : List TokenEntry)
    (coin : Nat) : Faithful coin (getTokensWithBalance entries coin) :=
  fun _ ht => (mem_getTokensWithBalance.1 ht).2.1

theorem faithful_insertionSort {coin : Nat} {l : List TokenWithBalance}
    (h : Faithful coin l) :
    Faithful coin (l.insertionSort fun a b => a.balance ≤ b.balance) :=
  fun t ht => h t ((List.perm_insertionSort _ l).mem_iff.1 ht)

theorem faithful_filter {coin : Nat} {l : List TokenWithBalance}
    {p : TokenWithBalance → Bool} (h : Faithful coin l) :
    Faithful coin (l.filter p) :=
  fun t ht => h t (List.mem_of_mem_filter ht)

theorem faithful_append {coin : Nat} {l₁ l₂ : List TokenWithBalance}
    (h₁ : Faithful coin l₁) (h₂ : Faithful coin l₂) :
    Faithful coin (l₁ ++ l₂) := by
  intro t ht
  rcases List.mem_append.1 ht with h | h
  exacts [h₁ t h, h₂ t h]

theorem map_entry_bal {coin : Nat} {l : List TokenWithBalance}
    (h : Faithful coin l) :
    (l.map (·.entry)).map (bal coin) = l.map (·.balance) := by
  induction l with
  | nil => rfl
  | cons t rest ih =>
    simp only [List.map_cons, List.cons.injEq]
    exact ⟨(h t (List.mem_cons_self _ _)).symm,
      ih fun x hx => h x (List.mem_cons_of_mem _ hx)⟩

theorem consumeSmallLoop_spec (coin : Nat) (ss : TokenWithBalance)
    (amount : Int) (hss : ss.balance = bal coin ss.entry) :
    ∀ (l consumed : List TokenWithBalance) (acc : Int)
      (sel : TokenSelection),
      Faithful coin l → Faithful coin consumed →
      acc = (consumed.map (·.balance)).sum →
      consumeSmallLoop ss amount l consumed acc = some sel →
      SelOk coin amount sel := by
  intro l
  induction l with
  | nil =>
    intro consumed acc sel _ hfc hacc h
    simp only [consumeSmallLoop] at h
    split at h
    · rename_i hguard
      cases h
      constructor
      · intro hfalse
        simp at hfalse
      · intro _
        refine ⟨consumed.map (·.entry), ss.entry, amount - acc, rfl, rfl,
          ?_, ?_, hguard.1, ?_⟩
        · rw [hss]
        · rw [map_entry_bal hfc, ← hacc]
          ring
        · rw [← hss]
          exact hguard.2
    · cases h
  | cons t rest ih =>
    intro consumed acc sel hfl hfc hacc h
    have hft : t.balance = bal coin t.entry := hfl t (List.mem_cons_self _ _)
    have hfrest : Faithful coin rest :=
      fun x hx => hfl x (List.mem_cons_of_mem _ hx)
    have hfc' : Faithful coin (consumed ++ [t]) :=
      faithful_append hfc (by
        intro x hx
        rcases List.mem_singleton.1 hx with rfl
        exact hft)
    have hacc' : acc + t.balance = ((consumed ++ [t]).map (·.balance)).sum := by
      rw [List.map_append, List.sum_append]
      simp [hacc]
    simp only [consumeSmallLoop] at h
    split at h
    · rename_i hexact
      cases h
      constructor
      · intro _
        show _ ∧ _ ∧ (((consumed ++ [t]).map (·.entry)).map (bal coin)).sum = amount
        refine ⟨rfl, rfl, ?_⟩
        rw [map_entry_bal hfc', ← hacc']
        exact hexact
      · intro hfalse
        simp at hfalse
    · split at h
      · split at h
        · rename_i hover hguard
          cases h
          constructor
          · intro hfalse
            simp at hfalse
          · intro _
            refine ⟨consumed.map (·.entry), ss.entry, amount - acc, rfl, rfl,
              ?_, ?_, hguard.1, ?_⟩
            · rw [hss]
            · rw [map_entry_bal hfc, ← hacc]
              ring
            · rw [← hss]
              exact hguard.2
        · exact ih (consumed ++ [t]) (acc + t.balance) sel hfrest hfc' hacc' h
      · exact ih (consumed ++ [t]) (acc + t.balance) sel hfrest hfc' hacc' h

theorem selectMultipleLoop_spec (coin : Nat) (amount : Int) :
    ∀ (l selected : List TokenWithBalance) (acc : Int)
      (sel : TokenSelection),
      Faithful coin l → Faithful coin selected →
      acc = (selected.map (·.balance)).sum → acc < amount →
      selectMultipleLoop amount l selected acc = .ok sel →
      SelOk coin amount sel := by
  intro l
  induction l with
  | nil =>
    intro selected acc sel _ _ _ _ h
    exact Except.noConfusion h
  | cons t rest ih =>
    intro selected acc sel hfl hfs hacc hlt h
    have hft : t.balance = bal coin t.entry := hfl t (List.mem_cons_self _ _)
    have hfrest : Faithful coin rest :=
      fun x hx => hfl x (List.mem_cons_of_mem _ hx)
    have hfs' : Faithful coin (selected ++ [t]) :=
      faithful_append hfs (by
        intro x hx
        rcases List.mem_singleton.1 hx with rfl
        exact hft)
    have hacc' : acc + t.balance = ((selected ++ [t]).map (·.balance)).sum := by
      rw [List.map_append, List.sum_append]
      simp [hacc]
    simp only [selectMultipleLoop] at h
    split at h
    · rename_i hexact
      cases h
      constructor
      · intro _
        show _ ∧ _ ∧ (((selected ++ [t]).map (·.entry)).map (bal coin)).sum = amount
        refine ⟨rfl, rfl, ?_⟩
        rw [map_entry_bal hfs', ← hacc']
        exact hexact
      · intro hfalse
        simp at hfalse
    · split at h
      · rename_i hne hover
        cases h
        constructor
        · intro hfalse
          simp at hfalse
        · intro _
          refine ⟨selected.map (·.entry), t.entry,
            amount - (acc + t.balance - t.balance),
            by rw [List.map_append]; rfl, rfl, ?_, ?_, by omega, ?_⟩
          · rw [hft]
          · rw [map_entry_bal hfs, ← hacc]
            ring
          · rw [← hft]
            omega
      · rename_i hne hnotover
        exact ih (selected ++ [t]) (acc + t.balance) sel hfrest hfs' hacc'
          (by omega) h

theorem selectFromSorted_spec (coin : Nat) (sorted : List TokenWithBalance)
    (amount : Int) (sel : TokenSelection) (hf : Faithful coin sorted)
    (hpos : 0 < amount)
    (h : selectFromSorted sorted amount = .ok sel) :
    SelOk coin amount sel := by
  unfold selectFromSorted at h
  split at h
  · rename_i exactMatch hfind
    cases h
    have hmem := List.mem_of_find?_eq_some hfind
    have hbal : exactMatch.balance = amount := by
      simpa using List.find?_some hfind
    constructor
    · intro _
      refine ⟨rfl, rfl, ?_⟩
      simp only [List.map_cons, List.map_nil, List.sum_cons, List.sum_nil,
        add_zero]
      rw [← hf exactMatch hmem]
      exact hbal
    · intro hfalse
      simp at hfalse
  · rename_i hfindnone
    split at h
    · rename_i ss hssfind
      have hssmem := List.mem_of_find?_eq_some hssfind
      have hssbal : amount ≤ ss.balance := by
        simpa using List.find?_some hssfind
      split at h
      · rename_i r hr
        unfold tryConsumeSmallTokens at hr
        split at hr
        · cases hr
        · have hspec := consumeSmallLoop_spec coin ss amount (hf ss hssmem)
            _ [] 0 r (faithful_filter hf) (by intro x hx; simp at hx) rfl hr
          cases h
          exact hspec
      · cases h
        have hne : ss.balance ≠ amount := by
          have := List.find?_eq_none.1 hfindnone ss hssmem
          simpa using this
        constructor
        · intro hfalse
          simp at hfalse
        · intro _
          refine ⟨[], ss.entry, amount, by simp, rfl, ?_, by simp, hpos, ?_⟩
          · rw [hf ss hssmem]
          · rw [← hf ss hssmem]
            omega
    · exact selectMultipleLoop_spec coin amount sorted [] 0 sel hf
        (by intro x hx; simp at hx) rfl hpos h

theorem select_ok_spec {entries : List TokenEntry} {coin : Nat}
    {amount : Int} {sel : TokenSelection}
    (h : selectTokensForAmount entries coin amount = .ok sel) :
    SelOk coin amount sel := by
  unfold selectTokensForAmount at h
  split at h
  · exact Except.noConfusion h
  · split at h
    · exact Except.noConfusion h
    · split at h
      · exact Except.noConfusion h
      · rename_i h1 h2 h3
        exact selectFromSorted_spec coin _ amount sel
          (faithful_insertionSort (faithful_getTokensWithBalance entries coin))
          (by omega) h

theorem selectMultipleLoop_total (amount : Int) :
    ∀ (l selected : List TokenWithBalance) (acc : Int),
      acc < amount → amount ≤ acc + (l.map (·.balance)).sum →
      ∃ sel, selectMultipleLoop amount l selected acc = .ok sel := by
  intro l
  induction l with
  | nil =>
    intro selected acc hlt hle
    simp only [List.map_nil, List.sum_nil, add_zero] at hle
    exact absurd hlt (by omega)
  | cons t rest ih =>
    intro selected acc hlt hle
    simp only [List.map_cons, List.sum_cons] at hle
    simp only [selectMultipleLoop]
    by_cases h1 : acc + t.balance = amount
    · rw [if_pos h1]
      exact ⟨_, rfl⟩
    · rw [if_neg h1]
      by_cases h2 : amount < acc + t.balance
      · rw [if_pos h2]
        exact ⟨_, rfl⟩
      · rw [if_neg h2]
        exact ih (selected ++ [t]) (acc + t.balance) (by omega) (by omega)

theorem selectFromSorted_total (sorted : List TokenWithBalance)
    (amount : Int) (hpos : 0 < amount)
    (hsum : amount ≤ (sorted.map (·.balance)).sum) :
    ∃ sel, selectFromSorted sorted amount = .ok sel := by
  unfold selectFromSorted
  split
  · exact ⟨_, rfl⟩
  · split
    · split
      · exact ⟨_, rfl⟩
      · exact ⟨_, rfl⟩
    · exact selectMultipleLoop_total amount sorted [] 0 hpos (by simpa using hsum)

theorem select_total (entries : List TokenEntry) (coin : Nat) (amount : Int)
    (hpos : 0 < amount) (hle : amount ≤ getBalance entries coin) :
    ∃ sel, selectTokensForAmount entries coin amount = .ok sel := by
  have hsum : amount ≤
      ((getTokensWithBalance entries coin).map (·.balance)).sum :=
    le_trans hle (getBalance_le_twbSum entries coin)
  have hperm :
      (((getTokensWithBalance entries coin).insertionSort
          fun a b => a.balance ≤ b.balance).map (·.balance)).sum =
        ((getTokensWithBalance entries coin).map (·.balance)).sum :=
    ((List.perm_insertionSort _ _).map _).sum_eq
  unfold selectTokensForAmount
  rw [if_neg (by omega)]
  rw [if_neg ?empty]
  case empty =>
    intro hemp
    rw [List.isEmpty_iff] at hemp
    rw [hemp] at hsum
    simp at hsum
    omega
  rw [if_neg ?insuf]
  case insuf =>
    rw [foldl_balance]
    omega
  exact selectFromSorted_total _ amount hpos (by omega)

theorem twbSum_eq_getBalance (entries : List TokenEntry) (coin : Nat)
    (h : ∀ e ∈ entries, 0 ≤ bal coin e) :
    ((getTokensWithBalance entries coin).map (·.balance)).sum =
      getBalance entries coin := by
  induction entries with
  | nil => simp [getBalance, getTokensWithBalance]
  | cons e rest ih =>
    have he := h e (List.mem_cons_self _ _)
    have hrest : ∀ x ∈ rest, 0 ≤ bal coin x :=
      fun x hx => h x (List.mem_cons_of_mem _ hx)
    by_cases hb : 0 < bal coin e
    · simp only [getBalance, getTokensWithBalance, List.map_cons,
        List.sum_cons, List.filterMap_cons, if_pos hb] at *
      rw [ih hrest]
    · have hz : bal coin e = 0 := le_antisymm (by omega) he
      simp only [getBalance, getTokensWithBalance, List.map_cons,
        List.sum_cons, List.filterMap_cons, if_neg hb] at *
      rw [ih hrest, hz, zero_add]

/-- Claim C1: for every wallet, coin, and amount with 0 < amount ≤ the
total balance of the coin across all entries, `selectTokensForAmount`
returns a selection covering the request exactly: without a split the
selected balances sum to the amount; with a split the balances of all
selected entries except the last plus `splitAmount` equal the amount, and
`changeAmount` is the balance of the last selected entry minus
`splitAmount` and is non-negative. -/
theorem claim_C1_selection_covers_amount (entries : List TokenEntry)
    (coin : Nat) (amount : Int) (hpos : 0 < amount)
    (hle : amount ≤ getBalance entries coin) :
    ∃ sel, selectTokensForAmount entries coin amount = .ok sel ∧
      (sel.requiresSplit = false →
        (sel.tokens.map (bal coin)).sum = amount) ∧
      (sel.requiresSplit = true →
        ∃ front lastE s, sel.tokens = front ++ [lastE] ∧
          sel.splitAmount = some s ∧
          sel.changeAmount = some (bal coin lastE - s) ∧
          (front.map (bal coin)).sum + s = amount ∧
          0 ≤ bal coin lastE - s) := by
  obtain ⟨sel, hsel⟩ := select_total entries coin amount hpos hle
  have hok := select_ok_spec hsel
  refine ⟨sel, hsel, fun hf => (hok.1 hf).2.2, fun ht => ?_⟩
  obtain ⟨front, lastE, s, h1, h2, h3, h4, h5, h6⟩ := hok.2 ht
  exact ⟨front, lastE, s, h1, h2, h3, h4, by omega⟩

/-- Witness for claim C1 at the concrete five-entry wallet and amount 80. -/
theorem claim_C1_witness :
    0 < (80 : Int) ∧ (80 : Int) ≤ getBalance exWallet 1 ∧
    (∃ sel, selectTokensForAmount exWallet 1 80 = .ok sel ∧
      (sel.requiresSplit = false →
        (sel.tokens.map (bal 1)).sum = 80) ∧
      (sel.requiresSplit = true →
        ∃ front lastE s, sel.tokens = front ++ [lastE] ∧
          sel.splitAmount = some s ∧
          sel.changeAmount = some (bal 1 lastE - s) ∧
          (front.map (bal 1)).sum + s = 80 ∧
          0 ≤ bal 1 lastE - s)) :=
  ⟨by decide, by decide,
    claim_C1_selection_covers_amount exWallet 1 80 (by decide) (by decide)⟩

/-- Claim C6: every returned selection designates at most one split, of
the last entry in the ordered token list, producing at most one change
token per call; the split fields are set exactly when `requiresSplit` is
true. -/
theorem claim_C6_at_most_one_split (entries : List TokenEntry) (coin : Nat)
    (amount : Int) (sel : TokenSelection)
    (h : selectTokensForAmount entries coin amount = .ok sel) :
    (sel.requiresSplit = false →
      sel.splitAmount = none ∧ sel.changeAmount = none) ∧
    (sel.requiresSplit = true →
      ∃ front lastE s, sel.tokens = front ++ [lastE] ∧
        sel.splitAmount = some s ∧
        sel.changeAmount = some (bal coin lastE - s)) := by
  have hok := select_ok_spec h
  refine ⟨fun hf => ⟨(hok.1 hf).1, (hok.1 hf).2.1⟩, fun ht => ?_⟩
  obtain ⟨front, lastE, s, h1, h2, h3, _, _, _⟩ := hok.2 ht
  exact ⟨front, lastE, s, h1, h2, h3⟩

/-- Witness for claim C6 at a single-entry wallet forcing a split. -/
theorem claim_C6_witness :
    selectTokensForAmount [exEntry 1 5] 1 3 =
      .ok ⟨[exEntry 1 5], 5, true, some 3, some 2⟩ ∧
    (((⟨[exEntry 1 5], 5, true, some 3, some 2⟩ :
        TokenSelection).requiresSplit = false →
      (⟨[exEntry 1 5], 5, true, some 3, some 2⟩ :
        TokenSelection).splitAmount = none ∧
      (⟨[exEntry 1 5], 5, true, some 3, some 2⟩ :
        TokenSelection).changeAmount = none) ∧
     ((⟨[exEntry 1 5], 5, true, some 3, some 2⟩ :
        TokenSelection).requiresSplit = true →
      ∃ front lastE s,
        (⟨[exEntry 1 5], 5, true, some 3, some 2⟩ :
          TokenSelection).tokens = front ++ [lastE] ∧
        (⟨[exEntry 1 5], 5, true, some 3, some 2⟩ :
          TokenSelection).splitAmount = some s ∧
        (⟨[exEntry 1 5], 5, true, some 3, some 2⟩ :
          TokenSelection).changeAmount = some (bal 1 lastE - s))) :=
  ⟨by decide, claim_C6_at_most_one_split [exEntry 1 5] 1 3
    ⟨[exEntry 1 5], 5, true, some 3, some 2⟩ (by decide)⟩

/-- Claim C7: `selectTokensForAmount` fails with the invalid-amount error
for every amount ≤ 0 whatever the entries are, with the no-balance error
when no entry has a positive balance for the coin, and with the
insufficient-balance error when some entry has a positive balance but the
sum of the balances (all non-negative) is below the amount; each failure
returns an error value carrying no selection. -/
theorem claim_C7_selector_failure_modes (entries : List TokenEntry)
    (coin : Nat) (amount : Int) :
    (amount ≤ 0 →
      selectTokensForAmount entries coin amount = .error .invalidAmount) ∧
    (0 < amount → (∀ e ∈ entries, bal coin e ≤ 0) →
      selectTokensForAmount entries coin amount = .error .noBalance) ∧
    (0 < amount → (∀ e ∈ entries, 0 ≤ bal coin e) →
      (∃ e ∈ entries, 0 < bal coin e) →
      getBalance entries coin < amount →
      selectTokensForAmount entries coin amount =
        .error .insufficientBalance) := by
  refine ⟨fun hneg => ?_, fun hpos hall => ?_, fun hpos hnn hex hlt => ?_⟩
  · unfold selectTokensForAmount
    rw [if_pos hneg]
  · have hnil : getTokensWithBalance entries coin = [] := by
      rw [getTokensWithBalance, List.filterMap_eq_nil_iff]
      intro e he
      rw [if_neg (by have := hall e he; omega)]
    unfold selectTokensForAmount
    rw [if_neg (by omega), if_pos (by rw [hnil]; rfl)]
  · obtain ⟨e, he, hbe⟩ := hex
    have hmem : (⟨e, bal coin e⟩ : TokenWithBalance) ∈
        getTokensWithBalance entries coin :=
      mem_getTokensWithBalance.2 ⟨he, rfl, hbe⟩
    unfold selectTokensForAmount
    rw [if_neg (by omega)]
    rw [if_neg (by
      intro hemp
      rw [List.isEmpty_iff] at hemp
      rw [hemp] at hmem
      simp at hmem)]
    rw [if_pos (by
      rw [foldl_balance, twbSum_eq_getBalance entries coin hnn]
      omega)]

/-- Witness for claim C7: the three failure modes at concrete inputs. -/
theorem claim_C7_witness :
    ((0 : Int) ≤ 0 ∧
      selectTokensForAmount exWallet 1 0 = .error .invalidAmount) ∧
    (selectTokensForAmount [exEntry 1 0] 1 5 = .error .noBalance) ∧
    (selectTokensForAmount [exEntry 1 10] 1 35 =
      .error .insufficientBalance) :=
  ⟨⟨by decide, (claim_C7_selector_failure_modes exWallet 1 0).1 (by decide)⟩,
    (claim_C7_selector_failure_modes [exEntry 1 0] 1 5).2.1 (by decide)
      (by decide),
    (claim_C7_selector_failure_modes [exEntry 1 10] 1 35).2.2 (by decide)
      (by decide) (by decide) (by decide)⟩

/-- Claim C9: when some owned entry holds exactly the requested positive
amount for the coin, `selectTokensForAmount` selects exactly one such
entry and nothing else, with no split and `totalAmount` equal to the
requested amount. -/
theorem claim_C9_exact_match_single_entry (entries : List TokenEntry)
    (coin : Nat) (amount : Int) (hpos : 0 < amount)
    (hex : ∃ e ∈ entries, bal coin e = amount) :
    ∃ e, selectTokensForAmount entries coin amount =
        .ok ⟨[e], amount, false, none, none⟩ ∧ bal coin e = amount := by
  obtain ⟨e, he, hbe⟩ := hex
  have hmem : (⟨e, bal coin e⟩ : TokenWithBalance) ∈
      getTokensWithBalance entries coin :=
    mem_getTokensWithBalance.2 ⟨he, rfl, by show 0 < bal coin e; omega⟩
  have hsmem : (⟨e, bal coin e⟩ : TokenWithBalance) ∈
      ((getTokensWithBalance entries coin).insertionSort
        fun a b => a.balance ≤ b.balance) :=
    (List.perm_insertionSort _ _).mem_iff.2 hmem
  have hsum : amount ≤
      ((getTokensWithBalance entries coin).map (·.balance)).sum := by
    have hx : (bal coin e) ∈
        ((getTokensWithBalance entries coin).map (·.balance)) :=
      List.mem_map_of_mem _ hmem
    have hnn : ∀ x ∈ (getTokensWithBalance entries coin).map (·.balance),
        0 ≤ x := by
      intro x hxx
      obtain ⟨t, htm, rfl⟩ := List.mem_map.1 hxx
      have := (mem_getTokensWithBalance.1 htm).2.2
      omega
    have := List.single_le_sum hnn _ hx
    omega
  cases hfind : ((getTokensWithBalance entries coin).insertionSort
      fun a b => a.balance ≤ b.balance).find?
        fun t => t.balance = amount with
  | none =>
    exact absurd (by simpa using List.find?_eq_none.1 hfind _ hsmem) (by simpa)
  | some u =>
    have humem := List.mem_of_find?_eq_some hfind
    have hub : u.balance = amount := by simpa using List.find?_some hfind
    have hufaith : u.balance = bal coin u.entry :=
      faithful_insertionSort (faithful_getTokensWithBalance entries coin)
        u humem
    refine ⟨u.entry, ?_, ?_⟩
    · unfold selectTokensForAmount
      rw [if_neg (by omega)]
      rw [if_neg (by
        intro hemp
        rw [List.isEmpty_iff] at hemp
        rw [hemp] at hmem
        simp at hmem)]
      rw [if_neg (by rw [foldl_balance]; omega)]
      unfold selectFromSorted
      rw [hfind]
    · rw [← hufaith]
      exact hub

/-- Witness for claim C9 at a single-entry wallet with an exact match. -/
theorem claim_C9_witness :
    0 < (5 : Int) ∧ (∃ e ∈ [exEntry 1 5], bal 1 e = 5) ∧
    (∃ e, selectTokensForAmount [exEntry 1 5] 1 5 =
        .ok ⟨[e], 5, false, none, none⟩ ∧ bal 1 e = 5) :=
  ⟨by decide, by decide,
    claim_C9_exact_match_single_entry [exEntry 1 5] 1 5 (by decide)
      (by decide)⟩

theorem mintLoop_trace (env : SplitEnv) (w : List TokenEntry) :
    ∀ (idxs : List Nat) (trace : List SplitEvent),
      ∃ extra, (mintLoop env w idxs trace).1 = trace ++ extra ∧
        SplitEvent.callbackInvoked ∉ extra := by
  intro idxs
  induction idxs with
  | nil =>
    intro trace
    exact ⟨[], by simp [mintLoop], by simp⟩
  | cons i rest ih =>
    intro trace
    simp only [mintLoop]
    by_cases h1 : env.mintOk i = true
    · rw [if_pos h1]
      by_cases h2 : env.mintProofOk i = true
      · rw [if_pos h2]
        obtain ⟨extra, he, hni⟩ :=
          ih (trace ++ [.mintSubmitted i] ++ [.mintProofReceived i])
        refine ⟨[.mintSubmitted i] ++ [.mintProofReceived i] ++ extra, ?_, ?_⟩
        · rw [he]
          simp
        · simp only [List.mem_append, List.mem_singleton]
          rintro ((h | h) | h)
          · exact SplitEvent.noConfusion h
          · exact SplitEvent.noConfusion h
          · exact hni h
      · rw [if_neg h2]
        refine ⟨[.mintSubmitted i], rfl, ?_⟩
        simp only [List.mem_singleton]
        intro h
        exact SplitEvent.noConfusion h
    · rw [if_neg h1]
      refine ⟨[.mintSubmitted i], rfl, ?_⟩
      simp only [List.mem_singleton]
      intro h
      exact SplitEvent.noConfusion h

/-- Claim C5: in both `split` and `splitExact`, when a burned-token
callback is supplied and the burn is accepted and its inclusion proof
arrives, the callback is invoked exactly once, strictly after the burn
proof (the trace starts `burnSubmitted, burnProofReceived,
callbackInvoked`) and strictly before any mint submission (all later
events, in particular every mint submission, lie in the suffix, which
contains no further callback event); the callback is awaited in the sense
that its failure aborts the operation before any mint. -/
theorem claim_C5_callback_after_burn_before_mints (env : SplitEnv)
    (f : OnTokenBurnedCallback) (tokenId : Nat) (tokenBalance amount : Int)
    (w : List TokenEntry) (hburn : env.burnOk = true)
    (hproof : env.burnProofOk = true) (hamt : amount < tokenBalance)
    (hbal : tokenBalance ≠ 0) :
    (∃ post,
      (TokenSplitter.split env (some f) tokenId tokenBalance amount w).1 =
        [.burnSubmitted, .burnProofReceived, .callbackInvoked] ++ post ∧
      SplitEvent.callbackInvoked ∉ post) ∧
    (∃ post,
      (TokenSplitter.splitExact env (some f) tokenId tokenBalance w).1 =
        [.burnSubmitted, .burnProofReceived, .callbackInvoked] ++ post ∧
      SplitEvent.callbackInvoked ∉ post) := by
  constructor
  · unfold TokenSplitter.split burnThenMint
    rw [if_neg (by omega), if_neg (by omega), if_pos hburn, if_pos hproof]
    cases hcb : f tokenId w with
    | none =>
      simp only [hcb]
      exact ⟨[], by simp, by simp⟩
    | some w' =>
      simp only [hcb]
      obtain ⟨extra, he, hni⟩ := mintLoop_trace env w' (List.range 2)
        [.burnSubmitted, .burnProofReceived, .callbackInvoked]
      exact ⟨extra, he, hni⟩
  · unfold TokenSplitter.splitExact burnThenMint
    rw [if_neg hbal, if_pos hburn, if_pos hproof]
    cases hcb : f tokenId w with
    | none =>
      simp only [hcb]
      exact ⟨[], by simp, by simp⟩
    | some w' =>
      simp only [hcb]
      obtain ⟨extra, he, hni⟩ := mintLoop_trace env w' (List.range 1)
        [.burnSubmitted, .burnProofReceived, .callbackInvoked]
      exact ⟨extra, he, hni⟩

/-- Witness for claim C5 with an all-accepting ledger, balance 7 and
amount 3. -/
theorem claim_C5_witness :
    allOkEnv.burnOk = true ∧ allOkEnv.burnProofOk = true ∧
    (3 : Int) < 7 ∧ (7 : Int) ≠ 0 ∧
    ((∃ post,
      (TokenSplitter.split allOkEnv (some (createOnBurnedCallback 1)) 1
          7 3 []).1 =
        [.burnSubmitted, .burnProofReceived, .callbackInvoked] ++ post ∧
      SplitEvent.callbackInvoked ∉ post) ∧
    (∃ post,
      (TokenSplitter.splitExact allOkEnv (some (createOnBurnedCallback 1)) 1
          7 []).1 =
        [.burnSubmitted, .burnProofReceived, .callbackInvoked] ++ post ∧
      SplitEvent.callbackInvoked ∉ post)) :=
  ⟨rfl, rfl, by decide, by decide,
    claim_C5_callback_after_burn_before_mints allOkEnv
      (createOnBurnedCallback 1) 1 7 3 [] rfl rfl (by decide) (by decide)⟩

theorem split_preBurn_failure (env : SplitEnv)
    (cb : Option OnTokenBurnedCallback) (tokenId : Nat)
    (tokenBalance amount : Int) (w : List TokenEntry)
    (hburn : env.burnOk = false) (hamt : amount < tokenBalance) :
    TokenSplitter.split env cb tokenId tokenBalance amount w =
      ([.burnSubmitted], w, .error .burnRejected) := by
  unfold TokenSplitter.split burnThenMint
  rw [if_neg (by omega), if_neg (by omega), if_neg (by simp [hburn])]

theorem splitExact_preBurn_failure (env : SplitEnv)
    (cb : Option OnTokenBurnedCallback) (tokenId : Nat)
    (tokenBalance : Int) (w : List TokenEntry)
    (hburn : env.burnOk = false) (hbal : tokenBalance ≠ 0) :
    TokenSplitter.splitExact env cb tokenId tokenBalance w =
      ([.burnSubmitted], w, .error .burnRejected) := by
  unfold TokenSplitter.splitExact burnThenMint
  rw [if_neg hbal, if_neg (by simp [hburn])]

theorem split_burnRejected_cases (env : SplitEnv)
    (cb : Option OnTokenBurnedCallback) (tokenId : Nat)
    (tokenBalance amount : Int) (w : List TokenEntry)
    (hburn : env.burnOk = false) :
    TokenSplitter.split env cb tokenId tokenBalance amount w =
        ([], w, .error .insufficientBalance) ∨
    TokenSplitter.split env cb tokenId tokenBalance amount w =
        ([], w, .error .useSplitExact) ∨
    TokenSplitter.split env cb tokenId tokenBalance amount w =
        ([.burnSubmitted], w, .error .burnRejected) := by
  unfold TokenSplitter.split burnThenMint
  by_cases h1 : tokenBalance - amount < 0
  · rw [if_pos h1]
    exact .inl rfl
  · rw [if_neg h1]
    by_cases h2 : tokenBalance - amount = 0
    · rw [if_pos h2]
      exact .inr (.inl rfl)
    · rw [if_neg h2, if_neg (by simp [hburn])]
      exact .inr (.inr rfl)

theorem splitExact_burnRejected_cases (env : SplitEnv)
    (cb : Option OnTokenBurnedCallback) (tokenId : Nat)
    (tokenBalance : Int) (w : List TokenEntry)
    (hburn : env.burnOk = false) :
    TokenSplitter.splitExact env cb tokenId tokenBalance w =
        ([], w, .error .noBalance) ∨
    TokenSplitter.splitExact env cb tokenId tokenBalance w =
        ([.burnSubmitted], w, .error .burnRejected) := by
  unfold TokenSplitter.splitExact burnThenMint
  by_cases h1 : tokenBalance = 0
  · rw [if_pos h1]
    exact .inl rfl
  · rw [if_neg h1, if_neg (by simp [hburn])]
    exact .inr rfl

theorem sendAmountExec_burnRejected (envs : Nat → SplitEnv) (coin : Nat)
    (change : TokenEntry) (sel : TokenSelection) (w : List TokenEntry)
    (h0 : (envs 0).burnOk = false) (hne : sel.tokens ≠ []) :
    ∃ err trace, sendAmountExec envs coin change sel w =
        (trace, w, .error err) ∧
      SplitEvent.callbackInvoked ∉ trace ∧
      ∀ i, SplitEvent.mintSubmitted i ∉ trace := by
  rcases hts : sel.tokens with _ | ⟨e, rest⟩
  · exact absurd hts hne
  rcases rest with _ | ⟨e2, rest2⟩
  · -- single-entry path
    simp only [sendAmountExec, hts]
    cases hrs : sel.requiresSplit with
    | true =>
      rw [if_pos rfl]
      rcases split_burnRejected_cases (envs 0)
          (some (createOnBurnedCallback e.token.id)) e.token.id
          (bal coin e) (sel.splitAmount.getD 0) w h0 with h | h | h <;>
        · rw [h]
          refine ⟨_, _, rfl, ?_, ?_⟩
          · simp
          · intro i
            simp
    | false =>
      rw [if_neg (by simp)]
      rcases splitExact_burnRejected_cases (envs 0)
          (some (createOnBurnedCallback e.token.id)) e.token.id
          (bal coin e) w h0 with h | h <;>
        · rw [h]
          refine ⟨_, _, rfl, ?_, ?_⟩
          · simp
          · intro i
            simp
  · -- multi-entry path
    simp only [sendAmountExec, hts]
    have hdrop : (e :: e2 :: rest2).dropLast = e :: (e2 :: rest2).dropLast :=
      rfl
    rw [hdrop]
    simp only [consumeTokens]
    rcases splitExact_burnRejected_cases (envs 0)
        (some (createOnBurnedCallback e.token.id)) e.token.id
        (bal coin e) w h0 with h | h <;>
      · rw [h]
        refine ⟨_, _, rfl, ?_, ?_⟩
        · simp
        · intro i
          simp

/-- Claim C8: when the ledger rejects the burn submission, `split` and
`splitExact` throw before the burned-token callback is invoked and before
any mint is submitted, leaving the threaded wallet untouched; hence a
pre-burn failure of `sendAmount` (the first burn of the transfer is
rejected) leaves the owned-token set unchanged, with no callback and no
mint submission in the whole trace. -/
theorem claim_C8_burn_rejected_no_mutation (env : SplitEnv)
    (envs : Nat → SplitEnv) (cb : Option OnTokenBurnedCallback)
    (tokenId coin : Nat) (tokenBalance amount : Int) (change : TokenEntry)
    (sel : TokenSelection) (w : List TokenEntry)
    (hburn : env.burnOk = false) (hamt : amount < tokenBalance)
    (hbal : tokenBalance ≠ 0) (h0 : (envs 0).burnOk = false)
    (hne : sel.tokens ≠ []) :
    TokenSplitter.split env cb tokenId tokenBalance amount w =
      ([.burnSubmitted], w, .error .burnRejected) ∧
    TokenSplitter.splitExact env cb tokenId tokenBalance w =
      ([.burnSubmitted], w, .error .burnRejected) ∧
    ∃ err trace, sendAmountExec envs coin change sel w =
        (trace, w, .error err) ∧
      SplitEvent.callbackInvoked ∉ trace ∧
      ∀ i, SplitEvent.mintSubmitted i ∉ trace :=
  ⟨split_preBurn_failure env cb tokenId tokenBalance amount w hburn hamt,
    splitExact_preBurn_failure env cb tokenId tokenBalance w hburn hbal,
    sendAmountExec_burnRejected envs coin change sel w h0 hne⟩

/-- Witness for claim C8 with a burn-rejecting ledger, balance 7, amount
3, and a two-entry selection. -/
theorem claim_C8_witness :
    burnRejectedEnv.burnOk = false ∧ (3 : Int) < 7 ∧ (7 : Int) ≠ 0 ∧
    (⟨[exEntry 1 10, exEntry 2 25], 35, false, none, none⟩ :
      TokenSelection).tokens ≠ [] ∧
    (TokenSplitter.split burnRejectedEnv none 1 7 3
        [exEntry 1 10, exEntry 2 25] =
      ([.burnSubmitted], [exEntry 1 10, exEntry 2 25],
        .error .burnRejected) ∧
    TokenSplitter.splitExact burnRejectedEnv none 1 7
        [exEntry 1 10, exEntry 2 25] =
      ([.burnSubmitted], [exEntry 1 10, exEntry 2 25],
        .error .burnRejected) ∧
    ∃ err trace,
      sendAmountExec (fun _ => burnRejectedEnv) 1 (exEntry 9 5)
          ⟨[exEntry 1 10, exEntry 2 25], 35, false, none, none⟩
          [exEntry 1 10, exEntry 2 25] =
        (trace, [exEntry 1 10, exEntry 2 25], .error err) ∧
      SplitEvent.callbackInvoked ∉ trace ∧
      ∀ i, SplitEvent.mintSubmitted i ∉ trace) :=
  ⟨rfl, by decide, by decide, by decide,
    claim_C8_burn_rejected_no_mutation burnRejectedEnv
      (fun _ => burnRejectedEnv) none 1 1 7 3 (exEntry 9 5)
      ⟨[exEntry 1 10, exEntry 2 25], 35, false, none, none⟩
      [exEntry 1 10, exEntry 2 25] rfl (by decide) (by decide) rfl
      (by decide)⟩

/-- Claim C10 counterexample: with a token balance of 5 and a requested
amount of 0 — violating the claimed requirement 0 < amount — `split` does
not throw: with an all-accepting ledger it completes successfully, and it
does submit a burn. -/
theorem claim_C10_counterexample :
    (TokenSplitter.split allOkEnv none 1 5 0 []).2.2 = .ok () ∧
    SplitEvent.burnSubmitted ∈ (TokenSplitter.split allOkEnv none 1 5 0 []).1 := by
  decide

/-- Claim C10 (amended): `split` throws the insufficient-balance error
when the requested amount exceeds the token balance for the coin, and the
use-`splitExact` error when the amount equals the balance; in both cases
the trace is empty, so no burn is submitted and the wallet is untouched.
Amounts ≤ 0 strictly below the balance are not rejected by `split`
itself. -/
theorem claim_C10_split_guards (env : SplitEnv)
    (cb : Option OnTokenBurnedCallback) (tokenId : Nat)
    (tokenBalance amount : Int) (w : List TokenEntry) :
    (tokenBalance < amount →
      TokenSplitter.split env cb tokenId tokenBalance amount w =
        ([], w, .error .insufficientBalance)) ∧
    (tokenBalance = amount →
      TokenSplitter.split env cb tokenId tokenBalance amount w =
        ([], w, .error .useSplitExact)) := by
  constructor
  · intro h
    unfold TokenSplitter.split
    rw [if_pos (by omega)]
  · intro h
    unfold TokenSplitter.split
    rw [if_neg (by omega), if_pos (by omega)]

/-- Witness for claim C10 at balances 5 and 7 against amount 7. -/
theorem claim_C10_witness :
    ((5 : Int) < 7 ∧
      TokenSplitter.split allOkEnv none 1 5 7 [] =
        ([], [], .error .insufficientBalance)) ∧
    ((7 : Int) = 7 ∧
      TokenSplitter.split allOkEnv none 1 7 7 [] =
        ([], [], .error .useSplitExact)) :=
  ⟨⟨by decide, (claim_C10_split_guards allOkEnv none 1 5 7 []).1 (by decide)⟩,
    ⟨rfl, (claim_C10_split_guards allOkEnv none 1 7 7 []).2 rfl⟩⟩

/-- Claim C2, evaluated at a failing input (status: code bug). The
payload declares a recipient address derived from public key 2, while the
receiving identity holds public key 1, so the locally reconstructed
ownership address differs from the declared recipient; yet
`receiveAmount` accepts the token, adds it to the owned set, and the
balance of the wallet grows by the transferred amount — no address
comparison exists anywhere in the receive path. -/
theorem claim_C2_no_recipient_check_eval :
    deriveAddress wrongRecipientPayload.mintTransaction.tokenType 1 ≠
      wrongRecipientPayload.mintTransaction.recipientAddress ∧
    (receiveAmount [] (.splitMint wrongRecipientPayload) 1).1 =
      [⟨⟨7, [(1, 100)]⟩, 9⟩] ∧
    getBalance (receiveAmount [] (.splitMint wrongRecipientPayload) 1).1
      1 = 100 := by
  decide

/-- Claim C4, evaluated at a failing input (status: code bug). Receiving
the identical `split_mint` payload of 100 units twice doubles the balance
of the wallet from 100 to 200: `Wallet.addToken` pushes unconditionally
and `receiveSplitToken` never checks for an already-present token id. -/
theorem claim_C4_duplicate_receive_doubles_eval :
    getBalance (receiveAmount [] (.splitMint dupPayload) 1).1 1 = 100 ∧
    getBalance (receiveAmount
      (receiveAmount [] (.splitMint dupPayload) 1).1
      (.splitMint dupPayload) 1).1 1 = 200 := by
  decide

/-- Claim C3 counterexample: on the wallet with balances
[10, 25, 50, 100, 500] of coin 1 (token ids 1, 2, 3, 4, 5), a request for
80 selects the entries with ids 1, 2 and 4 — splitting the balance-100
entry with `splitAmount` 45 and `changeAmount` 55 — not the balance-50
entry with change 5 as claimed. -/
theorem claim_C3_counterexample :
    (selectTokensForAmount exWallet 1 80).map
        (fun s => (s.tokens.map fun e => e.token.id, s.splitAmount,
          s.changeAmount)) =
      .ok ([1, 2, 4], some 45, some 55) := by
  decide

/-- Claim C3 as amended: on the wallet with balances [10, 25, 50, 100,
500], a request for 35 selects exactly the balance-10 and balance-25
entries with no split, and a request for 80 consumes those two entries
fully and splits the balance-100 entry (the smallest entry whose balance
covers the full request) with `splitAmount` 45 and `changeAmount` 55. -/
theorem claim_C3_small_token_preference :
    selectTokensForAmount exWallet 1 35 =
      .ok ⟨[exEntry 1 10, exEntry 2 25], 35, false, none, none⟩ ∧
    selectTokensForAmount exWallet 1 80 =
      .ok ⟨[exEntry 1 10, exEntry 2 25, exEntry 4 100], 135, true,
        some 45, some 55⟩ := by
  decide

end Alphalite
